import Mathlib

/-!
Shallow embedding of `rust/agents/relayer/src/tip_prover.rs` (the TipProver /
Tip Synchronizer of the relayer agent).

The synchronizer's own logic — `store_proof`, `from_disk`, `ingest_leaf_index`
and `update_from_batch` — is translated line by line from the source.  The two
Merkle tree implementations (`Prover` and `IncrementalMerkle`) and the rocksdb
handle (`AbacusDB`) are external to the source file; they are modelled from the
spec at their interface boundary: a `TreeModel` supplies the two deterministic
root functions, the prover capacity and the sibling-path function, and a `Db`
supplies the fallible leaf/root/proof accessors.

Both trees always ingest the same leaves at the same program points (source
lines 127-129 and 169-171), so a single leaf list carries the state of both;
`count` of either tree is the length of that list and the two roots are the two
root functions applied to it independently.  Process aborts (`panic!`,
`expect`, a failed `assert_eq!`) are modelled by the `RunResult.fatal`
constructor; Rust `Result::Err` on `&mut self` is `RunResult.err`, carrying the
state as mutated so far, since Rust mutations are not rolled back on error.
Indices and hashes are natural numbers; u32 wrap-around is not modelled except
for the `for i in 0..` iterator of `from_disk`, whose u32 counter overflows
(a debug-build abort) after `2 ^ 32` iterations.
-/

namespace TipSync

/-- Leaf and root hashes (`H256` in the source) are modelled as naturals. -/
abbrev Hash := Nat

/-- Modelled from the spec: the generic storage error of the Leaf Store
(`DbError`); all store operations may fail with it. -/
inductive DbError where
  | fault
deriving DecidableEq

/-- Modelled from the spec (the Prover implementation is outside this source
file): `ZeroProof` is the benign empty-proof condition reported by `prove`,
`TreeFull` the capacity error reported by `ingest`. -/
inductive ProverError where
  | ZeroProof (index : Nat) (count : Nat)
  | TreeFull
deriving DecidableEq

/-- An inclusion proof: the leaf index it proves plus the sibling-hash path
(spec, data model). -/
structure Proof where
  index : Nat
  path : List Hash
deriving DecidableEq

/-- Modelled from the spec: the two Merkle implementations abstracted at their
interface.  `proverRoot` and `incrRoot` are the two independently implemented
deterministic root functions of the ingested leaf sequence; `capacity` is the
maximum representable leaf count of the prover (bounded by the hash width,
e.g. `2 ^ 32` leaves); `provePath` computes the sibling path for an ingested
index. -/
structure TreeModel where
  proverRoot : List Hash → Hash
  incrRoot : List Hash → Hash
  capacity : Nat
  provePath : List Hash → Nat → List Hash

/-- The Leaf Store interface consumed by the synchronizer (`AbacusDB`).
`initial_proofs` is the proof column's content at startup; reads and writes of
proof slots may be set to fail to model storage faults. -/
structure Db where
  leaf_by_leaf_index : Nat → Except DbError (Option Hash)
  retrieve_latest_root : Except DbError (Option Hash)
  initial_proofs : List (Nat × Proof)
  proof_read_fails : Nat → Bool
  proof_write_fails : Nat → Bool

/-- Mutable state of the `TipProver` struct: the leaf sequence ingested into
both trees (their common `count` is `leaves.length`) and the proof slots of the
store, newest write first. -/
structure TipProver where
  leaves : List Hash
  proofs : List (Nat × Proof)
deriving DecidableEq

/-- The `TipProverError` enum of the source (lines 64-91). -/
inductive TipProverError where
  | MismatchedRoots (prover_root incremental_root checkpoint_root : Hash)
  | UnavailableLeaf (leaf_index : Nat)
  | ProverError (e : ProverError)
  | ChainCommunicationError
  | DbError (e : DbError)
deriving DecidableEq

/-- Outcome of a mutating synchronizer operation.  `ok` and `err` mirror Rust's
`Result` on `&mut self` — both carry the state after the call, since mutations
survive an error return — and `fatal` models a process abort. -/
inductive RunResult where
  | fatal (st : TipProver)
  | err (e : TipProverError) (st : TipProver)
  | ok (st : TipProver)
deriving DecidableEq

/-- State carried by any outcome. -/
def RunResult.state : RunResult → TipProver
  | .fatal st => st
  | .err _ st => st
  | .ok st => st

/-- A checkpoint attests that the Merkle root of the first `index` leaves is
`root`. -/
structure Checkpoint where
  root : Hash
  index : Nat

/-- A checkpoint plus a validator attestation; authenticity is assumed already
verified, so only the checkpoint is carried. -/
structure SignedCheckpoint where
  checkpoint : Checkpoint

/-- A committed message; only its leaf index is consumed here. -/
structure CommittedMessage where
  leaf_index : Nat

/-- The `MessageBatch` struct of the source (lines 14-19). -/
structure MessageBatch where
  messages : List CommittedMessage
  current_checkpoint_index : Nat
  signed_target_checkpoint : SignedCheckpoint

/-- Modelled from the spec: `Prover::ingest` appends the next leaf, failing
with the capacity error once `capacity` leaves are held. -/
def proverIngest (M : TreeModel) (leaves : List Hash) (leaf : Hash) :
    Except ProverError (List Hash) :=
  if leaves.length < M.capacity then .ok (leaves ++ [leaf]) else .error .TreeFull

/-- Modelled from the spec: `Prover::prove` returns the sibling path for an
ingested index and reports the benign `ZeroProof` condition when the index is
beyond the currently ingested range. -/
def prove (M : TreeModel) (leaves : List Hash) (index : Nat) :
    Except ProverError Proof :=
  if index < leaves.length then .ok ⟨index, M.provePath leaves index⟩
  else .error (.ZeroProof index leaves.length)

/-- Shared body of every ingestion site (source lines 127-129 and 169-171):
`prover.ingest(leaf).expect("!tree full")`, `incremental.ingest(leaf)` and
`assert_eq!(prover.root(), incremental.root())`. -/
def ingestPair (M : TreeModel) (st : TipProver) (leaf : Hash) : RunResult :=
  match proverIngest M st.leaves leaf with
  | .error _ => .fatal st
  | .ok leaves' =>
    if M.proverRoot leaves' = M.incrRoot leaves' then .ok { st with leaves := leaves' }
    else .fatal { st with leaves := leaves' }

/-- `TipProver::store_proof` (source lines 94-112). -/
def store_proof (M : TreeModel) (db : Db) (st : TipProver) (leaf_index : Nat) :
    RunResult :=
  match prove M st.leaves leaf_index with
  | .ok proof =>
    if db.proof_write_fails leaf_index then .err (.DbError .fault) st
    else .ok { st with proofs := (leaf_index, proof) :: st.proofs }
  | .error (.ZeroProof _ _) => .ok st
  | .error e => .err (.ProverError e) st

/-- `TipProver::ingest_leaf_index` (source lines 165-180). -/
def ingest_leaf_index (M : TreeModel) (db : Db) (st : TipProver)
    (leaf_index : Nat) : RunResult :=
  match db.leaf_by_leaf_index leaf_index with
  | .ok (some leaf) => ingestPair M st leaf
  | .ok none => .err (.UnavailableLeaf leaf_index) st
  | .error e => .err (.DbError e) st

/-- Rust's `for i in lo..hi { self.ingest_leaf_index(i)?; }`, fuelled by the
iteration count `hi - lo`. -/
def ingestRangeAux (M : TreeModel) (db : Db) : Nat → TipProver → Nat → RunResult
  | 0, st, _ => .ok st
  | fuel + 1, st, lo =>
    match ingest_leaf_index M db st lo with
    | .ok st' => ingestRangeAux M db fuel st' (lo + 1)
    | r => r

/-- The loop `for i in lo..hi { self.ingest_leaf_index(i)?; }`. -/
def ingestRange (M : TreeModel) (db : Db) (st : TipProver) (lo hi : Nat) :
    RunResult :=
  ingestRangeAux M db (hi - lo) st lo

/-- The two ingestion loops of `update_from_batch` (source lines 187-200): the
fast-forward loop from the prover's current count up to and including
`current_checkpoint_index`, then the advance loop from
`current_checkpoint_index + 1` up to but excluding the target checkpoint
index. -/
def ingestLoops (M : TreeModel) (db : Db) (st : TipProver)
    (batch : MessageBatch) : RunResult :=
  match ingestRange M db st st.leaves.length (batch.current_checkpoint_index + 1) with
  | .ok st1 =>
    ingestRange M db st1 (batch.current_checkpoint_index + 1)
      batch.signed_target_checkpoint.checkpoint.index
  | r => r

/-- The proof-storing loop of `update_from_batch` (source lines 219-221):
`for message in &batch.messages { self.store_proof(message.leaf_index)?; }`. -/
def storeProofLoop (M : TreeModel) (db : Db) :
    TipProver → List CommittedMessage → RunResult
  | st, [] => .ok st
  | st, m :: ms =>
    match store_proof M db st m.leaf_index with
    | .ok st' => storeProofLoop M db st' ms
    | r => r

/-- `TipProver::update_from_batch` (source lines 183-225). -/
def update_from_batch (M : TreeModel) (db : Db) (st : TipProver)
    (batch : MessageBatch) : RunResult :=
  match ingestLoops M db st batch with
  | .ok st2 =>
    if M.proverRoot st2.leaves ≠ M.incrRoot st2.leaves ∨
        M.proverRoot st2.leaves ≠ batch.signed_target_checkpoint.checkpoint.root then
      .err (.MismatchedRoots (M.proverRoot st2.leaves) (M.incrRoot st2.leaves)
        batch.signed_target_checkpoint.checkpoint.root) st2
    else storeProofLoop M db st2 batch.messages
  | r => r

/-- Replay loop of `from_disk` (source lines 123-140): `for i in 0..` fetches
leaf `i`, ingests it into both trees, asserts the roots agree and breaks once
the prover root equals the attested `target`; a missing leaf breaks the loop, a
store error aborts.  Fuel exhaustion models the u32 counter overflowing. -/
def replayAux (M : TreeModel) (db : Db) (target : Hash) :
    Nat → TipProver → Nat → RunResult
  | 0, st, _ => .fatal st
  | fuel + 1, st, i =>
    match db.leaf_by_leaf_index i with
    | .ok (some leaf) =>
      match ingestPair M st leaf with
      | .ok st' =>
        if M.proverRoot st'.leaves = target then .ok st'
        else replayAux M db target fuel st' (i + 1)
      | r => r
    | .ok none => .ok st
    | .error _ => .fatal st

/-- Backfill loop of `from_disk` (source lines 151-160): walk `0..count`; a
leaf present without a stored proof gets one via `store_proof`; a missing leaf
breaks; any store error (`expect("db error")`) aborts. -/
def backfillAux (M : TreeModel) (db : Db) : Nat → TipProver → Nat → RunResult
  | 0, st, _ => .ok st
  | fuel + 1, st, i =>
    match db.leaf_by_leaf_index i with
    | .error _ => .fatal st
    | .ok leafOpt =>
      if db.proof_read_fails i then .fatal st
      else
        match leafOpt, st.proofs.lookup i with
        | some _, none =>
          match store_proof M db st i with
          | .ok st' => backfillAux M db fuel st' (i + 1)
          | .err _ st' => .fatal st'
          | .fatal st' => .fatal st'
        | none, _ => .ok st
        | some _, some _ => backfillAux M db fuel st (i + 1)

/-- The backfill loop over `0..sync.prover.count()`. -/
def backfill (M : TreeModel) (db : Db) (st : TipProver) : RunResult :=
  backfillAux M db st.leaves.length st 0

/-- `TipProver::from_disk` (source lines 117-163). -/
def from_disk (M : TreeModel) (db : Db) : RunResult :=
  match db.retrieve_latest_root with
  | .error _ => .fatal ⟨[], db.initial_proofs⟩
  | .ok none => backfill M db ⟨[], db.initial_proofs⟩
  | .ok (some root) =>
    match replayAux M db root (2 ^ 32) ⟨[], db.initial_proofs⟩ 0 with
    | .ok st => backfill M db st
    | r => r

/-- The first `n` leaves described by the assignment `f`. -/
def leafList (f : Nat → Hash) (n : Nat) : List Hash :=
  (List.range n).map f

/-- A concrete deterministic root function used to instantiate the tree model
in witnesses: any deterministic function of the ingested sequence satisfies the
spec's contract for a root. -/
def cRoot (leaves : List Hash) : Hash :=
  leaves.foldl (fun a h => a * 1000003 + h + 1) 0

/-- Concrete tree model for witnesses: both implementations compute `cRoot`
(as the two real trees compute the same Merkle root) and the prover holds up to
`2 ^ 32` leaves. -/
def cModel : TreeModel :=
  { proverRoot := cRoot
    incrRoot := cRoot
    capacity := 2 ^ 32
    provePath := fun leaves i => leaves.take i }

/-- Concrete tree model with a tiny prover capacity, exercising the capacity
error. -/
def cModelTiny : TreeModel :=
  { proverRoot := cRoot
    incrRoot := cRoot
    capacity := 1
    provePath := fun leaves i => leaves.take i }

/-- A healthy store holding exactly the leaves of `ls` (dense from index 0)
with attested-root pointer `r`, empty proof column and no storage faults. -/
def mkDb (ls : List Hash) (r : Option Hash) : Db :=
  { leaf_by_leaf_index := fun i => .ok ls[i]?
    retrieve_latest_root := .ok r
    initial_proofs := []
    proof_read_fails := fun _ => false
    proof_write_fails := fun _ => false }

/-- The empty synchronizer state. -/
def emptyState : TipProver := ⟨[], []⟩

deriving instance DecidableEq for Except

/-! ### Helper lemmas -/

theorem leafList_length (f : Nat → Hash) (n : Nat) :
    (leafList f n).length = n := by
  simp [leafList]

theorem leafList_succ (f : Nat → Hash) (n : Nat) :
    leafList f (n + 1) = leafList f n ++ [f n] := by
  simp [leafList, List.range_succ]

theorem leafList_take (f : Nat → Hash) (m n : Nat) (h : m ≤ n) :
    (leafList f n).take m = leafList f m := by
  simp [leafList, ← List.map_take, List.take_range, Nat.min_eq_left h]

theorem lookup_cons_self (k : Nat) (p : Proof) (l : List (Nat × Proof)) :
    ((k, p) :: l).lookup k = some p := by
  simp [List.lookup]

theorem lookup_cons_ne (j k : Nat) (p : Proof) (l : List (Nat × Proof))
    (h : j ≠ k) : ((k, p) :: l).lookup j = l.lookup j := by
  simp [List.lookup, beq_eq_false_iff_ne.mpr h]

theorem lookup_isSome_cons (j k : Nat) (p : Proof) (l : List (Nat × Proof))
    (h : (l.lookup j).isSome = true) :
    (((k, p) :: l).lookup j).isSome = true := by
  by_cases hjk : j = k
  · subst hjk
    rw [lookup_cons_self]
    rfl
  · rw [lookup_cons_ne j k p l hjk]
    exact h

theorem ingestPair_ok_of (M : TreeModel) (st : TipProver) (leaf : Hash)
    (hcap : st.leaves.length < M.capacity)
    (hagree : M.proverRoot (st.leaves ++ [leaf]) =
      M.incrRoot (st.leaves ++ [leaf])) :
    ingestPair M st leaf = .ok ⟨st.leaves ++ [leaf], st.proofs⟩ := by
  unfold ingestPair proverIngest
  rw [if_pos hcap]
  show (if M.proverRoot (st.leaves ++ [leaf]) =
        M.incrRoot (st.leaves ++ [leaf]) then
      RunResult.ok ⟨st.leaves ++ [leaf], st.proofs⟩
    else RunResult.fatal ⟨st.leaves ++ [leaf], st.proofs⟩) =
    RunResult.ok ⟨st.leaves ++ [leaf], st.proofs⟩
  rw [if_pos hagree]

theorem store_proof_ok_of (M : TreeModel) (db : Db) (st : TipProver) (i : Nat)
    (hlt : i < st.leaves.length) (hw : db.proof_write_fails i = false) :
    store_proof M db st i =
      .ok ⟨st.leaves, (i, ⟨i, M.provePath st.leaves i⟩) :: st.proofs⟩ := by
  unfold store_proof prove
  rw [if_pos hlt]
  show (if db.proof_write_fails i = true then
      RunResult.err (TipProverError.DbError DbError.fault) st
    else RunResult.ok ⟨st.leaves, (i, ⟨i, M.provePath st.leaves i⟩) :: st.proofs⟩) =
    RunResult.ok ⟨st.leaves, (i, ⟨i, M.provePath st.leaves i⟩) :: st.proofs⟩
  rw [if_neg (by rw [hw]; simp)]

theorem store_proof_oob (M : TreeModel) (db : Db) (st : TipProver) (i : Nat)
    (h : st.leaves.length ≤ i) : store_proof M db st i = .ok st := by
  unfold store_proof prove
  rw [if_neg (by omega)]

theorem ingestPair_state_proofs (M : TreeModel) (st : TipProver) (leaf : Hash) :
    (ingestPair M st leaf).state.proofs = st.proofs := by
  unfold ingestPair
  cases hpi : proverIngest M st.leaves leaf with
  | error e => rfl
  | ok leaves' =>
    by_cases hr : M.proverRoot leaves' = M.incrRoot leaves'
    · simp only [if_pos hr]
      rfl
    · simp only [if_neg hr]
      rfl

theorem ingestPair_ok_roots (M : TreeModel) (st st' : TipProver) (leaf : Hash)
    (h : ingestPair M st leaf = .ok st') :
    M.proverRoot st'.leaves = M.incrRoot st'.leaves := by
  unfold ingestPair at h
  cases hpi : proverIngest M st.leaves leaf with
  | error e =>
    rw [hpi] at h
    exact absurd h (by simp)
  | ok leaves' =>
    rw [hpi] at h
    by_cases hr : M.proverRoot leaves' = M.incrRoot leaves'
    · simp only [if_pos hr] at h
      cases h
      exact hr
    · simp only [if_neg hr] at h
      exact absurd h (by simp)

theorem ingestPair_ok_leaves (M : TreeModel) (st st' : TipProver) (leaf : Hash)
    (h : ingestPair M st leaf = .ok st') :
    st'.leaves = st.leaves ++ [leaf] ∧ st'.proofs = st.proofs := by
  unfold ingestPair at h
  cases hpi : proverIngest M st.leaves leaf with
  | error e =>
    rw [hpi] at h
    exact absurd h (by simp)
  | ok leaves' =>
    rw [hpi] at h
    have hl : leaves' = st.leaves ++ [leaf] := by
      unfold proverIngest at hpi
      by_cases hc : st.leaves.length < M.capacity
      · simp only [if_pos hc] at hpi
        cases hpi
        rfl
      · simp only [if_neg hc] at hpi
        cases hpi
    by_cases hr : M.proverRoot leaves' = M.incrRoot leaves'
    · simp only [if_pos hr] at h
      cases h
      exact ⟨hl, rfl⟩
    · simp only [if_neg hr] at h
      exact absurd h (by simp)

theorem ingest_leaf_index_state_proofs (M : TreeModel) (db : Db)
    (st : TipProver) (i : Nat) :
    (ingest_leaf_index M db st i).state.proofs = st.proofs := by
  unfold ingest_leaf_index
  split
  · exact ingestPair_state_proofs ..
  · rfl
  · rfl

theorem ingestRangeAux_state_proofs (M : TreeModel) (db : Db) :
    ∀ (fuel : Nat) (st : TipProver) (lo : Nat),
      (ingestRangeAux M db fuel st lo).state.proofs = st.proofs := by
  intro fuel
  induction fuel with
  | zero => intro st lo; rfl
  | succ n ih =>
    intro st lo
    unfold ingestRangeAux
    have h := ingest_leaf_index_state_proofs M db st lo
    cases hr : ingest_leaf_index M db st lo with
    | ok st' =>
      rw [hr] at h
      exact (ih st' (lo + 1)).trans h
    | err e st' =>
      rw [hr] at h
      exact h
    | fatal st' =>
      rw [hr] at h
      exact h

theorem ingestRange_state_proofs (M : TreeModel) (db : Db) (st : TipProver)
    (lo hi : Nat) : (ingestRange M db st lo hi).state.proofs = st.proofs :=
  ingestRangeAux_state_proofs M db (hi - lo) st lo

theorem ingestLoops_state_proofs (M : TreeModel) (db : Db) (st : TipProver)
    (batch : MessageBatch) :
    (ingestLoops M db st batch).state.proofs = st.proofs := by
  unfold ingestLoops
  have h1 := ingestRange_state_proofs M db st st.leaves.length
    (batch.current_checkpoint_index + 1)
  cases hr : ingestRange M db st st.leaves.length
      (batch.current_checkpoint_index + 1) with
  | ok st1 =>
    rw [hr] at h1
    exact (ingestRange_state_proofs M db st1 (batch.current_checkpoint_index + 1)
      batch.signed_target_checkpoint.checkpoint.index).trans h1
  | err e st' =>
    rw [hr] at h1
    exact h1
  | fatal st' =>
    rw [hr] at h1
    exact h1

theorem store_proof_state_leaves (M : TreeModel) (db : Db) (st : TipProver)
    (i : Nat) :
    (store_proof M db st i).state.leaves = st.leaves := by
  unfold store_proof
  cases hp : prove M st.leaves i with
  | ok proof => cases hw : db.proof_write_fails i <;> rfl
  | error e => cases e <;> rfl

theorem ingest_leaf_index_ok_roots (M : TreeModel) (db : Db)
    (st st' : TipProver) (i : Nat) (h : ingest_leaf_index M db st i = .ok st') :
    M.proverRoot st'.leaves = M.incrRoot st'.leaves := by
  unfold ingest_leaf_index at h
  cases hl : db.leaf_by_leaf_index i with
  | ok o =>
    cases o with
    | some leaf =>
      rw [hl] at h
      exact ingestPair_ok_roots M st st' leaf h
    | none =>
      rw [hl] at h
      exact absurd h (by simp)
  | error e =>
    rw [hl] at h
    exact absurd h (by simp)

theorem ingest_leaf_index_ok_len (M : TreeModel) (db : Db)
    (st st' : TipProver) (i : Nat) (h : ingest_leaf_index M db st i = .ok st') :
    st'.leaves.length = st.leaves.length + 1 := by
  unfold ingest_leaf_index at h
  cases hl : db.leaf_by_leaf_index i with
  | ok o =>
    cases o with
    | some leaf =>
      rw [hl] at h
      rw [(ingestPair_ok_leaves M st st' leaf h).1]
      simp
    | none =>
      rw [hl] at h
      exact absurd h (by simp)
  | error e =>
    rw [hl] at h
    exact absurd h (by simp)

theorem ingestRangeAux_ok_len (M : TreeModel) (db : Db) :
    ∀ (fuel : Nat) (st : TipProver) (lo : Nat) (st' : TipProver),
      ingestRangeAux M db fuel st lo = .ok st' →
      st'.leaves.length = st.leaves.length + fuel := by
  intro fuel
  induction fuel with
  | zero =>
    intro st lo st' h
    cases h
    rfl
  | succ n ih =>
    intro st lo st' h
    unfold ingestRangeAux at h
    cases hr : ingest_leaf_index M db st lo with
    | ok st1 =>
      rw [hr] at h
      have h1 := ingest_leaf_index_ok_len M db st st1 lo hr
      have h2 := ih st1 (lo + 1) st' h
      omega
    | err e st1 =>
      rw [hr] at h
      exact absurd h (by simp)
    | fatal st1 =>
      rw [hr] at h
      exact absurd h (by simp)

theorem ingestRange_empty (M : TreeModel) (db : Db) (st : TipProver)
    (lo hi : Nat) (h : hi ≤ lo) : ingestRange M db st lo hi = .ok st := by
  unfold ingestRange
  rw [Nat.sub_eq_zero_of_le h]
  rfl

theorem ingestLoops_ok_inv (M : TreeModel) (db : Db) (st : TipProver)
    (batch : MessageBatch) (st2 : TipProver)
    (h : ingestLoops M db st batch = .ok st2) :
    ∃ st1, ingestRange M db st st.leaves.length
        (batch.current_checkpoint_index + 1) = .ok st1 ∧
      ingestRange M db st1 (batch.current_checkpoint_index + 1)
        batch.signed_target_checkpoint.checkpoint.index = .ok st2 := by
  unfold ingestLoops at h
  cases hr : ingestRange M db st st.leaves.length
      (batch.current_checkpoint_index + 1) with
  | ok st1 =>
    rw [hr] at h
    exact ⟨st1, rfl, h⟩
  | err e st1 =>
    rw [hr] at h
    exact absurd h (by simp)
  | fatal st1 =>
    rw [hr] at h
    exact absurd h (by simp)

theorem ingestLoops_ok_len (M : TreeModel) (db : Db) (st : TipProver)
    (batch : MessageBatch) (st2 : TipProver)
    (h : ingestLoops M db st batch = .ok st2) :
    st2.leaves.length =
      max st.leaves.length (batch.current_checkpoint_index + 1) +
        (batch.signed_target_checkpoint.checkpoint.index -
          (batch.current_checkpoint_index + 1)) := by
  obtain ⟨st1, h1, h2⟩ := ingestLoops_ok_inv M db st batch st2 h
  have l1 := ingestRangeAux_ok_len M db _ st st.leaves.length st1 h1
  have l2 := ingestRangeAux_ok_len M db _ st1
    (batch.current_checkpoint_index + 1) st2 h2
  omega

theorem update_from_batch_ok_inv (M : TreeModel) (db : Db) (st : TipProver)
    (batch : MessageBatch) (st' : TipProver)
    (h : update_from_batch M db st batch = .ok st') :
    ∃ st2, ingestLoops M db st batch = .ok st2 ∧
      M.proverRoot st2.leaves = M.incrRoot st2.leaves ∧
      M.proverRoot st2.leaves = batch.signed_target_checkpoint.checkpoint.root ∧
      storeProofLoop M db st2 batch.messages = .ok st' := by
  unfold update_from_batch at h
  cases hr : ingestLoops M db st batch with
  | ok st2 =>
    simp only [hr] at h
    by_cases hcond : M.proverRoot st2.leaves ≠ M.incrRoot st2.leaves ∨
        M.proverRoot st2.leaves ≠ batch.signed_target_checkpoint.checkpoint.root
    · rw [if_pos hcond] at h
      exact absurd h (by simp)
    · rw [if_neg hcond] at h
      push_neg at hcond
      exact ⟨st2, rfl, hcond.1, hcond.2, h⟩
  | err e st1 =>
    rw [hr] at h
    exact absurd h (by simp)
  | fatal st1 =>
    rw [hr] at h
    exact absurd h (by simp)

theorem storeProofLoop_state_leaves (M : TreeModel) (db : Db) :
    ∀ (ms : List CommittedMessage) (st : TipProver),
      (storeProofLoop M db st ms).state.leaves = st.leaves := by
  intro ms
  induction ms with
  | nil => intro st; rfl
  | cons m rest ih =>
    intro st
    unfold storeProofLoop
    have h := store_proof_state_leaves M db st m.leaf_index
    cases hr : store_proof M db st m.leaf_index with
    | ok st1 =>
      rw [hr] at h
      exact (ih st1).trans h
    | err e st1 =>
      rw [hr] at h
      exact h
    | fatal st1 =>
      rw [hr] at h
      exact h

theorem store_proof_rerun (M : TreeModel) (db : Db) (st st' : TipProver)
    (i : Nat) (h : store_proof M db st i = .ok st') :
    ∀ st2 : TipProver, st2.leaves = st.leaves →
      ∃ st2', store_proof M db st2 i = .ok st2' ∧ st2'.leaves = st2.leaves := by
  intro st2 hleq
  have hpe : prove M st2.leaves i = prove M st.leaves i := by rw [hleq]
  unfold store_proof at h ⊢
  rw [hpe]
  cases hp : prove M st.leaves i with
  | ok proof =>
    simp only [hp] at h
    cases hw : db.proof_write_fails i with
    | true =>
      simp only [hw] at h
      exact absurd h (by simp)
    | false =>
      simp only [hw]
      exact ⟨_, rfl, rfl⟩
  | error e =>
    simp only [hp] at h
    cases e with
    | ZeroProof a b => exact ⟨st2, rfl, rfl⟩
    | TreeFull => exact absurd h (by simp)

theorem storeProofLoop_rerun (M : TreeModel) (db : Db) :
    ∀ (ms : List CommittedMessage) (st st' : TipProver),
      storeProofLoop M db st ms = .ok st' →
      ∀ st2 : TipProver, st2.leaves = st.leaves →
        ∃ st2', storeProofLoop M db st2 ms = .ok st2' ∧
          st2'.leaves = st2.leaves := by
  intro ms
  induction ms with
  | nil =>
    intro st st' _ st2 _
    exact ⟨st2, rfl, rfl⟩
  | cons m rest ih =>
    intro st st' h st2 hleq
    unfold storeProofLoop at h ⊢
    cases hr : store_proof M db st m.leaf_index with
    | ok st1 =>
      rw [hr] at h
      obtain ⟨st2a, h2a, h2al⟩ := store_proof_rerun M db st st1 m.leaf_index hr st2 hleq
      have hst1 : st1.leaves = st.leaves := by
        have := store_proof_state_leaves M db st m.leaf_index
        rw [hr] at this
        exact this
      obtain ⟨st2', h2', h2'l⟩ := ih st1 st' h st2a (by rw [h2al, hleq, hst1])
      rw [h2a]
      exact ⟨st2', h2', by rw [h2'l, h2al]⟩
    | err e st1 =>
      rw [hr] at h
      exact absurd h (by simp)
    | fatal st1 =>
      rw [hr] at h
      exact absurd h (by simp)

theorem backfillAux_state_leaves (M : TreeModel) (db : Db) :
    ∀ (fuel : Nat) (st : TipProver) (i : Nat),
      (backfillAux M db fuel st i).state.leaves = st.leaves := by
  intro fuel
  induction fuel with
  | zero => intro st i; rfl
  | succ n ih =>
    intro st i
    unfold backfillAux
    cases hl : db.leaf_by_leaf_index i with
    | error e => rfl
    | ok leafOpt =>
      cases hw : db.proof_read_fails i with
      | true => rfl
      | false =>
        cases leafOpt with
        | none => rfl
        | some leaf =>
          cases hlk : st.proofs.lookup i with
          | none =>
            have hsp := store_proof_state_leaves M db st i
            cases hr : store_proof M db st i with
            | ok st1 =>
              rw [hr] at hsp
              exact (ih st1 (i + 1)).trans hsp
            | err e st1 =>
              rw [hr] at hsp
              exact hsp
            | fatal st1 =>
              rw [hr] at hsp
              exact hsp
          | some p => exact ih st (i + 1)

theorem backfill_state_leaves (M : TreeModel) (db : Db) (st : TipProver) :
    (backfill M db st).state.leaves = st.leaves :=
  backfillAux_state_leaves M db st.leaves.length st 0

theorem replayAux_ok_inv (M : TreeModel) (db : Db) (target : Hash) :
    ∀ (fuel : Nat) (st : TipProver) (i : Nat) (st' : TipProver),
      replayAux M db target fuel st i = .ok st' →
      (st.leaves = [] ∨ M.proverRoot st.leaves = M.incrRoot st.leaves) →
      (st'.leaves = [] ∨ M.proverRoot st'.leaves = M.incrRoot st'.leaves) := by
  intro fuel
  induction fuel with
  | zero =>
    intro st i st' h _
    exact absurd h (by simp [replayAux])
  | succ n ih =>
    intro st i st' h hinv
    unfold replayAux at h
    cases hl : db.leaf_by_leaf_index i with
    | ok o =>
      cases o with
      | some leaf =>
        simp only [hl] at h
        cases hip : ingestPair M st leaf with
        | ok stA =>
          simp only [hip] at h
          have hroots := ingestPair_ok_roots M st stA leaf hip
          by_cases hb : M.proverRoot stA.leaves = target
          · rw [if_pos hb] at h
            cases h
            exact Or.inr hroots
          · rw [if_neg hb] at h
            exact ih stA (i + 1) st' h (Or.inr hroots)
        | err e stA =>
          simp only [hip] at h
          exact absurd h (by simp)
        | fatal stA =>
          simp only [hip] at h
          exact absurd h (by simp)
      | none =>
        simp only [hl] at h
        cases h
        exact hinv
    | error e =>
      simp only [hl] at h
      exact absurd h (by simp)

theorem ingestRangeAux_full (M : TreeModel) (db : Db) (f : Nat → Hash)
    (hagree : ∀ l, M.proverRoot l = M.incrRoot l) :
    ∀ (fuel i : Nat) (st : TipProver),
      st.leaves = leafList f i →
      (∀ j, j < i + fuel → db.leaf_by_leaf_index j = .ok (some (f j))) →
      i + fuel ≤ M.capacity →
      ingestRangeAux M db fuel st i = .ok ⟨leafList f (i + fuel), st.proofs⟩ := by
  intro fuel
  induction fuel with
  | zero =>
    intro i st hst _ _
    simp only [Nat.add_zero]
    rw [← hst]
    rfl
  | succ n ih =>
    intro i st hst hdb hcap
    have hstep : ingest_leaf_index M db st i = .ok ⟨leafList f (i + 1), st.proofs⟩ := by
      unfold ingest_leaf_index
      simp only [hdb i (by omega)]
      have hlc : st.leaves.length < M.capacity := by
        rw [hst, leafList_length]
        omega
      rw [ingestPair_ok_of M st (f i) hlc (hagree _), hst, ← leafList_succ]
    unfold ingestRangeAux
    simp only [hstep]
    have hres := ih (i + 1) ⟨leafList f (i + 1), st.proofs⟩ rfl
      (fun j hj => hdb j (by omega)) (by omega)
    rw [show i + 1 + n = i + (n + 1) from by omega] at hres
    exact hres

theorem storeProofLoop_ok_of (M : TreeModel) (db : Db)
    (hw : ∀ j, db.proof_write_fails j = false) :
    ∀ (ms : List CommittedMessage) (st : TipProver),
      ∃ st', storeProofLoop M db st ms = .ok st' ∧ st'.leaves = st.leaves ∧
        (∀ j, (st.proofs.lookup j).isSome = true →
          (st'.proofs.lookup j).isSome = true) ∧
        (∀ m ∈ ms, m.leaf_index < st.leaves.length →
          (st'.proofs.lookup m.leaf_index).isSome = true) := by
  intro ms
  induction ms with
  | nil =>
    intro st
    exact ⟨st, rfl, rfl, fun j h => h, fun m hm => absurd hm (List.not_mem_nil m)⟩
  | cons m rest ih =>
    intro st
    by_cases hlt : m.leaf_index < st.leaves.length
    · have hsp := store_proof_ok_of M db st m.leaf_index hlt (hw m.leaf_index)
      obtain ⟨st', h', hl', hmono, hrest⟩ :=
        ih ⟨st.leaves, (m.leaf_index, ⟨m.leaf_index,
          M.provePath st.leaves m.leaf_index⟩) :: st.proofs⟩
      refine ⟨st', ?_, hl', ?_, ?_⟩
      · unfold storeProofLoop
        simp only [hsp]
        exact h'
      · intro j hj
        exact hmono j (lookup_isSome_cons j m.leaf_index _ st.proofs hj)
      · intro m' hm' hlen
        rcases List.mem_cons.mp hm' with hmeq | hmem
        · subst hmeq
          apply hmono
          rw [lookup_cons_self]
          rfl
        · exact hrest m' hmem hlen
    · obtain ⟨st', h', hl', hmono, hrest⟩ := ih st
      refine ⟨st', ?_, hl', hmono, ?_⟩
      · unfold storeProofLoop
        simp only [store_proof_oob M db st m.leaf_index (by omega)]
        exact h'
      · intro m' hm' hlen
        rcases List.mem_cons.mp hm' with hmeq | hmem
        · subst hmeq
          exact absurd hlen hlt
        · exact hrest m' hmem hlen

theorem replayAux_ok_char (M : TreeModel) (db : Db) (target : Hash) :
    ∀ (fuel i : Nat) (st st' : TipProver),
      replayAux M db target fuel st i = .ok st' →
      st.leaves.length = i →
      (∀ j, j < i → db.leaf_by_leaf_index j = .ok st.leaves[j]?) →
      (∀ m, 0 < m → m ≤ i → M.proverRoot (st.leaves.take m) ≠ target) →
      (∀ j, j < st'.leaves.length →
        db.leaf_by_leaf_index j = .ok st'.leaves[j]?) ∧
      (M.proverRoot st'.leaves = target ∨
        db.leaf_by_leaf_index st'.leaves.length = .ok none) ∧
      (∀ m, 0 < m → m < st'.leaves.length →
        M.proverRoot (st'.leaves.take m) ≠ target) := by
  intro fuel
  induction fuel with
  | zero =>
    intro i st st' h _ _ _
    exact absurd h (by simp [replayAux])
  | succ n ih =>
    intro i st st' h hlen hdb hmin
    unfold replayAux at h
    cases hl : db.leaf_by_leaf_index i with
    | ok o =>
      cases o with
      | some leaf =>
        simp only [hl] at h
        cases hip : ingestPair M st leaf with
        | ok stA =>
          simp only [hip] at h
          obtain ⟨hA, _⟩ := ingestPair_ok_leaves M st stA leaf hip
          have hAlen : stA.leaves.length = i + 1 := by
            rw [hA]
            simp [hlen]
          have hconcat : stA.leaves[i]? = some leaf := by
            rw [hA, ← hlen]
            exact List.getElem?_concat_length st.leaves leaf
          have hdbA : ∀ j, j < i + 1 →
              db.leaf_by_leaf_index j = .ok stA.leaves[j]? := by
            intro j hj
            by_cases hji : j < i
            · rw [hA, List.getElem?_append_left (by omega)]
              exact hdb j hji
            · have hj_eq : j = i := by omega
              subst hj_eq
              rw [hconcat]
              exact hl
          have htakeA : ∀ m, m ≤ i → stA.leaves.take m = st.leaves.take m := by
            intro m hm
            rw [hA, List.take_append_of_le_length (by omega)]
          by_cases hb : M.proverRoot stA.leaves = target
          · rw [if_pos hb] at h
            cases h
            refine ⟨fun j hj => hdbA j (by omega), Or.inl hb, ?_⟩
            intro m hm hmlt
            rw [htakeA m (by omega)]
            exact hmin m hm (by omega)
          · rw [if_neg hb] at h
            have hminA : ∀ m, 0 < m → m ≤ i + 1 →
                M.proverRoot (stA.leaves.take m) ≠ target := by
              intro m hm hmle
              by_cases hmi : m ≤ i
              · rw [htakeA m hmi]
                exact hmin m hm hmi
              · have hmeq : m = i + 1 := by omega
                subst hmeq
                rw [← hAlen, List.take_length _]
                exact hb
            exact ih (i + 1) stA st' h hAlen hdbA hminA
        | err e stA =>
          simp only [hip] at h
          exact absurd h (by simp)
        | fatal stA =>
          simp only [hip] at h
          exact absurd h (by simp)
      | none =>
        simp only [hl] at h
        cases h
        refine ⟨fun j hj => hdb j (by omega), Or.inr ?_, ?_⟩
        · rw [hlen]
          exact hl
        · intro m hm hmlt
          exact hmin m hm (by omega)
    | error e =>
      simp only [hl] at h
      exact absurd h (by simp)

theorem replayAux_of_absent (M : TreeModel) (db : Db) (target : Hash)
    (f : Nat → Hash) (K : Nat)
    (hagree : ∀ l, M.proverRoot l = M.incrRoot l)
    (hcap : K ≤ M.capacity)
    (hleaf : ∀ j, j < K → db.leaf_by_leaf_index j = .ok (some (f j)))
    (habs : db.leaf_by_leaf_index K = .ok none)
    (hnomatch : ∀ m, m < K →
      M.proverRoot ((leafList f K).take (m + 1)) ≠ target) :
    ∀ (fuel i : Nat) (st : TipProver), i ≤ K → K - i < fuel →
      st.leaves = leafList f i →
      replayAux M db target fuel st i = .ok ⟨leafList f K, st.proofs⟩ := by
  intro fuel
  induction fuel with
  | zero =>
    intro i st _ hfuel _
    omega
  | succ n ih =>
    intro i st hile hfuel hst
    by_cases hiK : i = K
    · subst hiK
      unfold replayAux
      simp only [habs]
      rw [← hst]
    · have hiltK : i < K := by omega
      unfold replayAux
      simp only [hleaf i hiltK]
      have hlc : st.leaves.length < M.capacity := by
        rw [hst, leafList_length]
        omega
      have hip := ingestPair_ok_of M st (f i) hlc (hagree _)
      rw [hst, ← leafList_succ] at hip
      simp only [hip]
      have hne : M.proverRoot
          ((⟨leafList f (i + 1), st.proofs⟩ : TipProver).leaves) ≠ target := by
        have := hnomatch i hiltK
        rw [leafList_take f (i + 1) K (by omega)] at this
        exact this
      rw [if_neg hne]
      exact ih (i + 1) ⟨leafList f (i + 1), st.proofs⟩ (by omega) (by omega) rfl

theorem backfillAux_ok_of (M : TreeModel) (db : Db) (f : Nat → Hash) (K : Nat)
    (hnoread : ∀ j, db.proof_read_fails j = false)
    (hw : ∀ j, db.proof_write_fails j = false)
    (hleaf : ∀ j, j < K → db.leaf_by_leaf_index j = .ok (some (f j))) :
    ∀ (fuel i : Nat) (st : TipProver), st.leaves = leafList f K →
      i + fuel ≤ K →
      ∃ st', backfillAux M db fuel st i = .ok st' ∧ st'.leaves = st.leaves := by
  intro fuel
  induction fuel with
  | zero =>
    intro i st _ _
    exact ⟨st, rfl, rfl⟩
  | succ n ih =>
    intro i st hst hiK
    unfold backfillAux
    simp only [hleaf i (by omega)]
    have hcond : ¬(db.proof_read_fails i = true) := by
      rw [hnoread i]
      simp
    rw [if_neg hcond]
    cases hlk : st.proofs.lookup i with
    | none =>
      have hlt : i < st.leaves.length := by
        rw [hst, leafList_length]
        omega
      have hsp := store_proof_ok_of M db st i hlt (hw i)
      simp only [hsp]
      obtain ⟨st', h', hl'⟩ := ih (i + 1)
        ⟨st.leaves, (i, ⟨i, M.provePath st.leaves i⟩) :: st.proofs⟩ hst (by omega)
      exact ⟨st', h', hl'⟩
    | some p =>
      exact ih (i + 1) st hst (by omega)

/-! ### Claims -/

/-- C1: if after the two ingestion loops of `update_from_batch` the prover
root, the incremental root and the target checkpoint root are not all equal,
then `update_from_batch` returns the `MismatchedRoots` error carrying all three
roots, and the proof column is exactly as it was before the call (no proof for
any message was written). -/
theorem claim_C1 (M : TreeModel) (db : Db) (st : TipProver)
    (batch : MessageBatch) (st2 : TipProver)
    (hok : ingestLoops M db st batch = .ok st2)
    (hne : ¬(M.proverRoot st2.leaves = M.incrRoot st2.leaves ∧
      M.proverRoot st2.leaves = batch.signed_target_checkpoint.checkpoint.root)) :
    update_from_batch M db st batch =
      .err (.MismatchedRoots (M.proverRoot st2.leaves) (M.incrRoot st2.leaves)
        batch.signed_target_checkpoint.checkpoint.root) st2 ∧
    st2.proofs = st.proofs := by
  constructor
  · unfold update_from_batch
    simp only [hok]
    rw [if_pos (by tauto)]
  · have h := ingestLoops_state_proofs M db st batch
    rw [hok] at h
    exact h

/-- Witness for C1: a batch whose signed checkpoint root (999) differs from
both tree roots after ingestion. -/
theorem claim_C1_witness :
    ingestLoops cModel (mkDb [10] none) emptyState ⟨[⟨0⟩], 0, ⟨⟨999, 1⟩⟩⟩ =
      .ok ⟨[10], []⟩ ∧
    (update_from_batch cModel (mkDb [10] none) emptyState ⟨[⟨0⟩], 0, ⟨⟨999, 1⟩⟩⟩ =
      .err (.MismatchedRoots 11 11 999) ⟨[10], []⟩ ∧
    (⟨[10], []⟩ : TipProver).proofs = emptyState.proofs) :=
  ⟨by decide,
   claim_C1 cModel (mkDb [10] none) emptyState ⟨[⟨0⟩], 0, ⟨⟨999, 1⟩⟩⟩
     ⟨[10], []⟩ (by decide) (by decide)⟩

/-- C4 counterexample: the claim says the capacity-exceeded error from
`ingest` is wrapped as a `ProverError` variant and returned from
`update_from_batch`; in fact `prover.ingest(leaf).expect("!tree full")`
aborts the process.  With a prover of capacity 1 holding one leaf, the
fast-forward loop's second ingestion aborts fatally instead of returning an
error. -/
theorem claim_C4_cex :
    update_from_batch cModelTiny (mkDb [10, 20] none) emptyState
      ⟨[], 1, ⟨⟨cRoot [10, 20], 2⟩⟩⟩ = .fatal ⟨[10], []⟩ := by decide

/-- C4 (amended): structural prover errors reported by `prove` are wrapped and
returned from `store_proof`, but the capacity-exceeded error from `ingest` is
not returned to the caller: when the store has the requested leaf and the
prover already holds `capacity` leaves, `ingest_leaf_index` (and hence
`update_from_batch`) aborts the process. -/
theorem claim_C4 (M : TreeModel) (db : Db) (st : TipProver) (i : Nat)
    (leaf : Hash) (hfull : M.capacity ≤ st.leaves.length)
    (hleaf : db.leaf_by_leaf_index i = .ok (some leaf)) :
    ingest_leaf_index M db st i = .fatal st := by
  unfold ingest_leaf_index
  simp only [hleaf]
  unfold ingestPair proverIngest
  rw [if_neg (by omega)]

/-- Witness for C4 (amended): the capacity-1 prover holding one leaf aborts on
the next ingestion. -/
theorem claim_C4_witness :
    cModelTiny.capacity ≤ 1 ∧
    ingest_leaf_index cModelTiny (mkDb [10, 20] none) ⟨[10], []⟩ 1 =
      .fatal ⟨[10], []⟩ :=
  ⟨by decide,
   claim_C4 cModelTiny (mkDb [10, 20] none) ⟨[10], []⟩ 1 20 (by decide) rfl⟩

/-- C8: when the store's latest-attested-root pointer is absent, `from_disk`
returns a synchronizer holding zero leaves (no ingestion happened) and leaves
the proof column exactly as it was (no proof written). -/
theorem claim_C8 (M : TreeModel) (db : Db)
    (h : db.retrieve_latest_root = .ok none) :
    from_disk M db = .ok ⟨[], db.initial_proofs⟩ := by
  unfold from_disk
  rw [h]
  rfl

/-- Witness for C8: a store with leaves but no attested-root pointer yields the
empty synchronizer. -/
theorem claim_C8_witness :
    from_disk cModel (mkDb [10, 20] none) = .ok ⟨[], []⟩ :=
  claim_C8 cModel (mkDb [10, 20] none) rfl

/-- C9: when the requested index is outside the currently ingested range, the
prover reports the benign `ZeroProof` condition and `store_proof` returns
success with the state (including the proof column) unchanged. -/
theorem claim_C9 (M : TreeModel) (db : Db) (st : TipProver) (leaf_index : Nat)
    (h : st.leaves.length ≤ leaf_index) :
    store_proof M db st leaf_index = .ok st := by
  unfold store_proof prove
  rw [if_neg (by omega)]

/-- Witness for C9: requesting a proof for index 2 of a one-leaf tree is a
success no-op. -/
theorem claim_C9_witness :
    store_proof cModel (mkDb [10] none) ⟨[10], []⟩ 2 = .ok ⟨[10], []⟩ :=
  claim_C9 cModel (mkDb [10] none) ⟨[10], []⟩ 2 (by decide)

/-- C10: `store_proof` never mutates tree state — in every outcome the leaf
sequence (hence both counts and both roots) is unchanged, and every proof slot
other than the requested index is unchanged. -/
theorem claim_C10 (M : TreeModel) (db : Db) (st : TipProver) (leaf_index : Nat) :
    (store_proof M db st leaf_index).state.leaves = st.leaves ∧
    (store_proof M db st leaf_index).state.leaves.length = st.leaves.length ∧
    M.proverRoot (store_proof M db st leaf_index).state.leaves =
      M.proverRoot st.leaves ∧
    M.incrRoot (store_proof M db st leaf_index).state.leaves =
      M.incrRoot st.leaves ∧
    ∀ j, j ≠ leaf_index →
      (store_proof M db st leaf_index).state.proofs.lookup j =
        st.proofs.lookup j := by
  have hl := store_proof_state_leaves M db st leaf_index
  refine ⟨hl, by rw [hl], by rw [hl], by rw [hl], ?_⟩
  intro j hj
  unfold store_proof
  cases hp : prove M st.leaves leaf_index with
  | ok proof =>
    cases hw : db.proof_write_fails leaf_index with
    | true => rfl
    | false =>
      show List.lookup j ((leaf_index, proof) :: st.proofs) = st.proofs.lookup j
      simp [List.lookup, beq_eq_false_iff_ne.mpr hj]
  | error e => cases e <;> rfl

/-- C2: after every single leaf ingestion either the two roots agree or the
operation aborts fatally rather than returning — whenever `ingest_leaf_index`
returns `Ok` the prover root equals the incremental root, and a synchronizer
returned normally by `from_disk` either ingested nothing during replay or has
equal roots (every replay step asserts equality and aborts on violation). -/
theorem claim_C2 :
    (∀ (M : TreeModel) (db : Db) (st : TipProver) (i : Nat) (st' : TipProver),
      ingest_leaf_index M db st i = .ok st' →
      M.proverRoot st'.leaves = M.incrRoot st'.leaves) ∧
    (∀ (M : TreeModel) (db : Db) (st' : TipProver),
      from_disk M db = .ok st' →
      st'.leaves = [] ∨ M.proverRoot st'.leaves = M.incrRoot st'.leaves) := by
  constructor
  · exact fun M db st i st' h => ingest_leaf_index_ok_roots M db st st' i h
  · intro M db st' h
    unfold from_disk at h
    cases hroot : db.retrieve_latest_root with
    | error e =>
      simp only [hroot] at h
      exact absurd h (by simp)
    | ok o =>
      cases o with
      | none =>
        simp only [hroot] at h
        have hb := backfill_state_leaves M db ⟨[], db.initial_proofs⟩
        rw [h] at hb
        exact Or.inl hb
      | some root =>
        simp only [hroot] at h
        cases hrep : replayAux M db root (2 ^ 32) ⟨[], db.initial_proofs⟩ 0 with
        | ok stR =>
          simp only [hrep] at h
          have hinv := replayAux_ok_inv M db root (2 ^ 32)
            ⟨[], db.initial_proofs⟩ 0 stR hrep (Or.inl rfl)
          have hb := backfill_state_leaves M db stR
          rw [h] at hb
          have hb' : st'.leaves = stR.leaves := hb
          rw [hb']
          exact hinv
        | err e stR =>
          simp only [hrep] at h
          exact absurd h (by simp)
        | fatal stR =>
          simp only [hrep] at h
          exact absurd h (by simp)

/-- Witness for C2: a concrete ingestion and a concrete recovery, with the
roots equal afterwards in both. -/
theorem claim_C2_witness :
    ingest_leaf_index cModel (mkDb [10] none) emptyState 0 = .ok ⟨[10], []⟩ ∧
    cModel.proverRoot [10] = cModel.incrRoot [10] ∧
    from_disk cModel (mkDb [10, 20] (some (cRoot [10, 20]))) =
      .ok ⟨[10, 20], [(1, ⟨1, [10]⟩), (0, ⟨0, []⟩)]⟩ ∧
    (([10, 20] : List Hash) = [] ∨
      cModel.proverRoot [10, 20] = cModel.incrRoot [10, 20]) :=
  ⟨by decide,
   claim_C2.1 cModel (mkDb [10] none) emptyState 0 ⟨[10], []⟩ (by decide),
   by decide,
   claim_C2.2 cModel (mkDb [10, 20] (some (cRoot [10, 20])))
     ⟨[10, 20], [(1, ⟨1, [10]⟩), (0, ⟨0, []⟩)]⟩ (by decide)⟩

/-- C3 counterexample: the claim says re-running `update_from_batch` with the
same batch after a successful run ingests no leaf index twice.  With leaves
0 and 1 in the store and a batch with `current_checkpoint_index = 0` and
target index 2, the first run succeeds; the second run's advance loop — which
is not guarded by the current count — re-ingests leaf index 1 (the state ends
holding `[10, 20, 20]`) and the run fails with `MismatchedRoots`. -/
theorem claim_C3_cex :
    update_from_batch cModel (mkDb [10, 20] none) emptyState
      ⟨[], 0, ⟨⟨cRoot [10, 20], 2⟩⟩⟩ = .ok ⟨[10, 20], []⟩ ∧
    update_from_batch cModel (mkDb [10, 20] none) ⟨[10, 20], []⟩
      ⟨[], 0, ⟨⟨cRoot [10, 20], 2⟩⟩⟩ =
      .err (.MismatchedRoots (cRoot [10, 20, 20]) (cRoot [10, 20, 20])
        (cRoot [10, 20])) ⟨[10, 20, 20], []⟩ := by decide

/-- C3 (amended): re-running `update_from_batch` with the same batch after a
successful run is safe when the target checkpoint index is at most
`current_checkpoint_index + 1`: the fast-forward range computation skips all
already-ingested indices, the second run succeeds and no leaf is ingested
again (the leaf sequence is unchanged). -/
theorem claim_C3 (M : TreeModel) (db : Db) (st : TipProver)
    (batch : MessageBatch) (st1 : TipProver)
    (hok : update_from_batch M db st batch = .ok st1)
    (ht : batch.signed_target_checkpoint.checkpoint.index ≤
      batch.current_checkpoint_index + 1) :
    ∃ st2, update_from_batch M db st1 batch = .ok st2 ∧
      st2.leaves = st1.leaves := by
  obtain ⟨stm, hloops, hpi, hpc, hsl⟩ :=
    update_from_batch_ok_inv M db st batch st1 hok
  have hlen := ingestLoops_ok_len M db st batch stm hloops
  have hl1 : st1.leaves = stm.leaves := by
    have hx := storeProofLoop_state_leaves M db batch.messages stm
    rw [hsl] at hx
    exact hx
  have hlen1 : batch.current_checkpoint_index + 1 ≤ st1.leaves.length := by
    rw [hl1]
    omega
  have hloops2 : ingestLoops M db st1 batch = .ok st1 := by
    unfold ingestLoops
    rw [ingestRange_empty M db st1 st1.leaves.length
      (batch.current_checkpoint_index + 1) hlen1]
    exact ingestRange_empty M db st1 (batch.current_checkpoint_index + 1)
      batch.signed_target_checkpoint.checkpoint.index (by omega)
  obtain ⟨st2, h2, h2l⟩ :=
    storeProofLoop_rerun M db batch.messages stm st1 hsl st1 hl1
  have hcond : ¬(M.proverRoot st1.leaves ≠ M.incrRoot st1.leaves ∨
      M.proverRoot st1.leaves ≠
        batch.signed_target_checkpoint.checkpoint.root) := by
    rw [hl1]
    push_neg
    exact ⟨hpi, hpc⟩
  refine ⟨st2, ?_, h2l⟩
  unfold update_from_batch
  simp only [hloops2]
  rw [if_neg hcond]
  exact h2

/-- Witness for C3 (amended): after a successful run with target index 1 and
`current_checkpoint_index = 0`, the second run succeeds without touching the
leaf sequence. -/
theorem claim_C3_witness :
    ∃ st2, update_from_batch cModel (mkDb [10] none) ⟨[10], [(0, ⟨0, []⟩)]⟩
      ⟨[⟨0⟩], 0, ⟨⟨cRoot [10], 1⟩⟩⟩ = .ok st2 ∧
      st2.leaves = [10] :=
  claim_C3 cModel (mkDb [10] none) emptyState ⟨[⟨0⟩], 0, ⟨⟨cRoot [10], 1⟩⟩⟩
    ⟨[10], [(0, ⟨0, []⟩)]⟩ (by decide) (by decide)

/-- C6 counterexample: the claim says that on successful completion both trees
hold exactly `signed_target_checkpoint.index` leaves.  Two refuting runs:
with an empty synchronizer and a batch with `current_checkpoint_index = 0` but
target index 0, `update_from_batch` succeeds holding 1 leaf (the fast-forward
loop ingests through index 0 inclusive); with a synchronizer already holding 2
leaves and the same `current_checkpoint_index = 0`, target index 2,
it succeeds holding 3 leaves (the advance loop is not guarded by the count). -/
theorem claim_C6_cex :
    (update_from_batch cModel (mkDb [10] none) emptyState
        ⟨[], 0, ⟨⟨cRoot [10], 0⟩⟩⟩ = .ok ⟨[10], []⟩ ∧
      (update_from_batch cModel (mkDb [10] none) emptyState
        ⟨[], 0, ⟨⟨cRoot [10], 0⟩⟩⟩).state.leaves.length ≠ 0) ∧
    (update_from_batch cModel (mkDb [10, 20] none) ⟨[10, 20], []⟩
        ⟨[], 0, ⟨⟨cRoot [10, 20, 20], 2⟩⟩⟩ = .ok ⟨[10, 20, 20], []⟩ ∧
      (update_from_batch cModel (mkDb [10, 20] none) ⟨[10, 20], []⟩
        ⟨[], 0, ⟨⟨cRoot [10, 20, 20], 2⟩⟩⟩).state.leaves.length ≠ 2) := by decide

/-- C6 (amended): the fast-forward loop runs from the prover's current count
up to and including `current_checkpoint_index` and the advance loop from
`current_checkpoint_index + 1` up to but excluding the target index, so the
loops leave `max count (c+1) + (target - (c+1))` leaves; when the starting
count is at most `current_checkpoint_index + 1` and the target index is at
least `current_checkpoint_index + 1`, successful completion leaves both trees
holding exactly `signed_target_checkpoint.index` leaves. -/
theorem claim_C6 (M : TreeModel) (db : Db) (st : TipProver)
    (batch : MessageBatch) :
    (∀ st2, ingestLoops M db st batch = .ok st2 →
      st2.leaves.length =
        max st.leaves.length (batch.current_checkpoint_index + 1) +
          (batch.signed_target_checkpoint.checkpoint.index -
            (batch.current_checkpoint_index + 1))) ∧
    (∀ st', st.leaves.length ≤ batch.current_checkpoint_index + 1 →
      batch.current_checkpoint_index + 1 ≤
        batch.signed_target_checkpoint.checkpoint.index →
      update_from_batch M db st batch = .ok st' →
      st'.leaves.length = batch.signed_target_checkpoint.checkpoint.index) := by
  constructor
  · exact fun st2 h => ingestLoops_ok_len M db st batch st2 h
  · intro st' h1 h2 hok
    obtain ⟨st2, hloops, _, _, hsl⟩ :=
      update_from_batch_ok_inv M db st batch st' hok
    have hlen := ingestLoops_ok_len M db st batch st2 hloops
    have hl : st'.leaves = st2.leaves := by
      have hx := storeProofLoop_state_leaves M db batch.messages st2
      rw [hsl] at hx
      exact hx
    rw [hl]
    omega

/-- Witness for C6 (amended): an empty synchronizer synced to a target of
index 2 ends with exactly 2 leaves. -/
theorem claim_C6_witness :
    (⟨[10, 20], []⟩ : TipProver).leaves.length =
      max emptyState.leaves.length 2 + (2 - 2) ∧
    (⟨[10, 20], []⟩ : TipProver).leaves.length = 2 :=
  ⟨(claim_C6 cModel (mkDb [10, 20] none) emptyState
      ⟨[], 1, ⟨⟨cRoot [10, 20], 2⟩⟩⟩).1 ⟨[10, 20], []⟩ (by decide),
   (claim_C6 cModel (mkDb [10, 20] none) emptyState
      ⟨[], 1, ⟨⟨cRoot [10, 20], 2⟩⟩⟩).2 ⟨[10, 20], []⟩ (by decide) (by decide)
     (by decide)⟩

/-- C5 counterexample: the claim quantifies over `c ≤ N` and over arbitrary
batch messages.  Two refuting runs with a healthy store holding one leaf
(`N = 1`, true root `cRoot [10]`): with `current_checkpoint_index = c = N = 1`
the fast-forward loop ingests through index 1 inclusive, which the store does
not have, so `update_from_batch` fails with `UnavailableLeaf 1` instead of
succeeding; and with `c = 0 < N` but a message at leaf index `1 ≥ N`, the call
succeeds yet no proof is present for that message index (the benign
`ZeroProof` condition was swallowed). -/
theorem claim_C5_cex :
    update_from_batch cModel (mkDb [10] none) emptyState
      ⟨[⟨0⟩], 1, ⟨⟨cRoot [10], 1⟩⟩⟩ = .err (.UnavailableLeaf 1) ⟨[10], []⟩ ∧
    (update_from_batch cModel (mkDb [10] none) emptyState
      ⟨[⟨1⟩], 0, ⟨⟨cRoot [10], 1⟩⟩⟩ = .ok ⟨[10], []⟩ ∧
      (⟨[10], []⟩ : TipProver).proofs.lookup 1 = none) := by decide

/-- C5 (amended): for every healthy store holding leaves `0..N-1`, every batch
with `current_checkpoint_index c < N` (strictly) and a signed target
checkpoint of index `N` whose root is the true root of those `N` leaves,
`update_from_batch` from a fresh synchronizer succeeds, ends holding exactly
those leaves, and a proof is present afterwards for every message leaf index
below `N` (messages with leaf index `≥ N` are skipped as the benign no-proof
condition). -/
theorem claim_C5 (M : TreeModel) (db : Db) (f : Nat → Hash) (N : Nat)
    (st0 : TipProver) (batch : MessageBatch)
    (hagree : ∀ l, M.proverRoot l = M.incrRoot l)
    (hcap : N ≤ M.capacity)
    (hleaf : ∀ i, i < N → db.leaf_by_leaf_index i = .ok (some (f i)))
    (hw : ∀ i, db.proof_write_fails i = false)
    (hst : st0.leaves = [])
    (hc : batch.current_checkpoint_index < N)
    (hti : batch.signed_target_checkpoint.checkpoint.index = N)
    (htr : batch.signed_target_checkpoint.checkpoint.root =
      M.proverRoot (leafList f N)) :
    ∃ st', update_from_batch M db st0 batch = .ok st' ∧
      st'.leaves = leafList f N ∧
      ∀ m ∈ batch.messages, m.leaf_index < N →
        (st'.proofs.lookup m.leaf_index).isSome = true := by
  have h0 : st0.leaves.length = 0 := by
    rw [hst]
    rfl
  have hloop1 : ingestRange M db st0 st0.leaves.length
      (batch.current_checkpoint_index + 1) =
      .ok ⟨leafList f (batch.current_checkpoint_index + 1), st0.proofs⟩ := by
    unfold ingestRange
    rw [h0]
    have hres := ingestRangeAux_full M db f hagree
      (batch.current_checkpoint_index + 1) 0 st0 (by rw [hst]; rfl)
      (fun j hj => hleaf j (by omega)) (by omega)
    rw [show 0 + (batch.current_checkpoint_index + 1) =
      batch.current_checkpoint_index + 1 from by omega] at hres
    exact hres
  have hloop2 : ingestRange M db
      ⟨leafList f (batch.current_checkpoint_index + 1), st0.proofs⟩
      (batch.current_checkpoint_index + 1)
      batch.signed_target_checkpoint.checkpoint.index =
      .ok ⟨leafList f N, st0.proofs⟩ := by
    unfold ingestRange
    rw [hti]
    have hres := ingestRangeAux_full M db f hagree
      (N - (batch.current_checkpoint_index + 1))
      (batch.current_checkpoint_index + 1)
      ⟨leafList f (batch.current_checkpoint_index + 1), st0.proofs⟩ rfl
      (fun j hj => hleaf j (by omega)) (by omega)
    rw [show batch.current_checkpoint_index + 1 +
      (N - (batch.current_checkpoint_index + 1)) = N from by omega] at hres
    exact hres
  have hloops : ingestLoops M db st0 batch = .ok ⟨leafList f N, st0.proofs⟩ := by
    unfold ingestLoops
    rw [hloop1]
    exact hloop2
  obtain ⟨st', h', hl', hmono, hms⟩ :=
    storeProofLoop_ok_of M db hw batch.messages ⟨leafList f N, st0.proofs⟩
  refine ⟨st', ?_, hl', ?_⟩
  · unfold update_from_batch
    simp only [hloops]
    rw [if_neg (by push_neg; exact ⟨hagree _, htr.symm⟩)]
    exact h'
  · intro m hm hlen
    refine hms m hm ?_
    show m.leaf_index < (leafList f N).length
    rw [leafList_length]
    exact hlen

/-- Witness for C5 (amended): a fresh synchronizer, a two-leaf store and a
batch asking for proofs of both messages. -/
theorem claim_C5_witness :
    ∃ st', update_from_batch cModel (mkDb [10, 20] none) emptyState
        ⟨[⟨0⟩, ⟨1⟩], 0, ⟨⟨cRoot [10, 20], 2⟩⟩⟩ = .ok st' ∧
      st'.leaves = leafList (fun j => 10 * (j + 1)) 2 ∧
      ∀ m ∈ ([⟨0⟩, ⟨1⟩] : List CommittedMessage), m.leaf_index < 2 →
        (st'.proofs.lookup m.leaf_index).isSome = true :=
  claim_C5 cModel (mkDb [10, 20] none) (fun j => 10 * (j + 1)) 2 emptyState
    ⟨[⟨0⟩, ⟨1⟩], 0, ⟨⟨cRoot [10, 20], 2⟩⟩⟩ (fun _ => rfl) (by decide)
    (by decide) (fun _ => rfl) rfl (by decide) rfl (by decide)

/-- C7: during `from_disk` replay with an attested root present, leaves are
ingested sequentially from index 0 (every held leaf is the store's leaf at its
index), replay stops either at the first prefix whose root equals the attested
root — no shorter nonempty prefix matches, even if further leaves exist — or
at an absent leaf; and when a leaf is absent before the root is reached (on an
otherwise healthy store), `from_disk` still returns a synchronizer normally,
holding exactly the leaves present. -/
theorem claim_C7 :
    (∀ (M : TreeModel) (db : Db) (target : Hash) (sync : TipProver),
      db.retrieve_latest_root = .ok (some target) →
      from_disk M db = .ok sync →
      (∀ j, j < sync.leaves.length →
        db.leaf_by_leaf_index j = .ok sync.leaves[j]?) ∧
      (M.proverRoot sync.leaves = target ∨
        db.leaf_by_leaf_index sync.leaves.length = .ok none) ∧
      (∀ m, 0 < m → m < sync.leaves.length →
        M.proverRoot (sync.leaves.take m) ≠ target)) ∧
    (∀ (M : TreeModel) (db : Db) (target : Hash) (f : Nat → Hash) (K : Nat),
      (∀ l, M.proverRoot l = M.incrRoot l) →
      K ≤ M.capacity → K < 2 ^ 32 →
      db.retrieve_latest_root = .ok (some target) →
      (∀ j, j < K → db.leaf_by_leaf_index j = .ok (some (f j))) →
      db.leaf_by_leaf_index K = .ok none →
      (∀ m, m < K → M.proverRoot ((leafList f K).take (m + 1)) ≠ target) →
      (∀ j, db.proof_read_fails j = false) →
      (∀ j, db.proof_write_fails j = false) →
      ∃ sync, from_disk M db = .ok sync ∧ sync.leaves = leafList f K) := by
  constructor
  · intro M db target sync hroot h
    unfold from_disk at h
    simp only [hroot] at h
    cases hrep : replayAux M db target (2 ^ 32) ⟨[], db.initial_proofs⟩ 0 with
    | ok stR =>
      simp only [hrep] at h
      have hb := backfill_state_leaves M db stR
      rw [h] at hb
      have hbs : sync.leaves = stR.leaves := hb
      have hchar := replayAux_ok_char M db target (2 ^ 32) 0
        ⟨[], db.initial_proofs⟩ stR hrep rfl (fun j hj => by omega)
        (fun m hm hle => by omega)
      rw [hbs]
      exact hchar
    | err e stR =>
      simp only [hrep] at h
      exact absurd h (by simp)
    | fatal stR =>
      simp only [hrep] at h
      exact absurd h (by simp)
  · intro M db target f K hagree hcap hK32 hroot hleaf habs hnomatch hr hw
    have hrep := replayAux_of_absent M db target f K hagree hcap hleaf habs
      hnomatch (2 ^ 32) 0 ⟨[], db.initial_proofs⟩ (by omega) (by omega) rfl
    obtain ⟨sync, hbf, hbl⟩ := backfillAux_ok_of M db f K hr hw hleaf
      ((⟨leafList f K, db.initial_proofs⟩ : TipProver).leaves.length) 0
      ⟨leafList f K, db.initial_proofs⟩ rfl
      (by show 0 + (leafList f K).length ≤ K; rw [leafList_length]; omega)
    refine ⟨sync, ?_, hbl⟩
    unfold from_disk
    simp only [hroot, hrep]
    exact hbf

/-- Witness for C7: a store holding three leaves whose attested root is the
root of the first two — replay stops after two leaves; and a store whose
attested root is never reached before leaf 1 is found absent — recovery still
returns a synchronizer holding the one present leaf. -/
theorem claim_C7_witness :
    (cModel.proverRoot
        (⟨[10, 20], [(1, ⟨1, [10]⟩), (0, ⟨0, []⟩)]⟩ : TipProver).leaves =
        cRoot [10, 20] ∨
      (mkDb [10, 20, 30] (some (cRoot [10, 20]))).leaf_by_leaf_index
        (⟨[10, 20], [(1, ⟨1, [10]⟩), (0, ⟨0, []⟩)]⟩ : TipProver).leaves.length =
        .ok none) ∧
    (∃ sync, from_disk cModel (mkDb [10] (some 999)) = .ok sync ∧
      sync.leaves = leafList (fun _ => 10) 1) :=
  ⟨(claim_C7.1 cModel (mkDb [10, 20, 30] (some (cRoot [10, 20])))
      (cRoot [10, 20]) ⟨[10, 20], [(1, ⟨1, [10]⟩), (0, ⟨0, []⟩)]⟩ rfl
      (by decide)).2.1,
   claim_C7.2 cModel (mkDb [10] (some 999)) 999 (fun _ => 10) 1 (fun _ => rfl)
     (by decide) (by decide) rfl (by decide) rfl (by decide) (fun _ => rfl)
     (fun _ => rfl)⟩

/-- Witness for C10: storing a proof at index 0 leaves the slot at index 1
untouched. -/
theorem claim_C10_witness :
    (store_proof cModel (mkDb [5] none) ⟨[5], []⟩ 0).state.leaves = [5] ∧
    (store_proof cModel (mkDb [5] none) ⟨[5], []⟩ 0).state.proofs.lookup 1 =
      (⟨[5], []⟩ : TipProver).proofs.lookup 1 :=
  ⟨(claim_C10 cModel (mkDb [5] none) ⟨[5], []⟩ 0).1,
   (claim_C10 cModel (mkDb [5] none) ⟨[5], []⟩ 0).2.2.2.2 1 (by decide)⟩

end TipSync
